import Mathlib

/-!
Formal model of the stablecoin payment routing engine
(`app/services/payment_router.py`): graph construction from registry and
pool state, fee-minimal simple-path route finding, and sequential route
execution.  Chain queries that may raise are modelled as `Option`-valued
snapshot functions; Python floor division `//` is `Int.fdiv`; the float
price ratio `from_price / to_price` is modelled as an exact rational and
`int(...)` on the product as truncation toward zero.
-/

abbrev Token := Nat
abbrev Address := Nat
abbrev TxId := Nat
abbrev Err := Nat

deriving instance DecidableEq for Except

/-- An edge of the liquidity graph as stored by `_build_graph`:
`self.graph.add_edge(from_token, to_token, weight=from_price/to_price, fee=swapFee)`. -/
structure Edge where
  src : Token
  dst : Token
  weight : Rat
  fee : Int
deriving DecidableEq

/-- Point-in-time snapshot of the registry and pool contract views used by
`_build_graph`.  A query that would raise an exception returns `none`. -/
structure ChainEnv where
  stablecoins : List Token
  getBalance : Token → Option Int
  getMinLiquidity : Token → Option Int
  getStablecoinPrice : Token → Option Int
  swapFee : Option Int

/-- The `Route` dataclass of the source. -/
structure Route where
  path : List Token
  amounts : List Int
  total_fee : Int
  estimated_gas : Int
deriving DecidableEq

/-- The body of the inner loop of `_build_graph` for one ordered pair
`(a, b)`: queries balance and minimum liquidity of the destination, then
prices and the pool swap fee; any failed query (or a zero destination
price, which would make the float division raise) skips the edge. -/
def mkEdge (env : ChainEnv) (a b : Token) : Option Edge :=
  if a = b then none
  else
    match env.getBalance b, env.getMinLiquidity b with
    | some bal, some minL =>
      if minL ≤ bal then
        match env.getStablecoinPrice a, env.getStablecoinPrice b, env.swapFee with
        | some pa, some pb, some f =>
          if pb = 0 then none
          else some ⟨a, b, Rat.divInt pa pb, f⟩
        | _, _, _ => none
      else none
    | _, _ => none

/-- `_build_graph`: the edges of the rebuilt directed graph, in insertion
order (outer loop over sources, inner loop over destinations). -/
def build_graph (env : ChainEnv) : List Edge :=
  env.stablecoins.flatMap fun a => env.stablecoins.filterMap fun b => mkEdge env a b

/-- The node set of the graph: endpoints of inserted edges
(`add_edge` adds both endpoints as nodes). -/
def graphNodes (edges : List Edge) : List Token :=
  edges.flatMap fun e => [e.src, e.dst]

/-- Successors of `u` in adjacency (insertion) order. -/
def successors (edges : List Edge) (u : Token) : List Token :=
  (edges.filter fun e => e.src = u).map Edge.dst

/-- Edge attribute lookup `self.graph[u][v]`; `none` models the `KeyError`
raised for a missing edge. -/
def edgeLookup (edges : List Edge) (u v : Token) : Option Edge :=
  edges.find? fun e => e.src = u && e.dst = v

def hasEdgeB (edges : List Edge) (u v : Token) : Bool :=
  (edgeLookup edges u v).isSome

/-- Consecutive elements of `p` are all edges of the graph. -/
def chainEdges (edges : List Edge) (p : List Token) : Prop :=
  List.Chain' (fun u v => hasEdgeB edges u v = true) p

/-- Depth-first enumeration of simple paths, mirroring
`networkx.all_simple_paths`: successors are explored in adjacency order,
nodes already on the current path are skipped, reaching the target yields
the path, and the remaining edge budget bounds the depth. -/
def dfsPaths (edges : List Edge) (tgt : Token) : Nat → Token → List Token → List (List Token)
  | 0, _, _ => []
  | b + 1, u, visited =>
    (successors edges u).flatMap fun w =>
      if w ∈ visited then []
      else if w = tgt then [visited ++ [w]]
      else dfsPaths edges tgt b w (visited ++ [w])

/-- `nx.all_simple_paths(graph, s, t, cutoff)`: raises `NodeNotFound`
(modelled as `Except.error 1`) when either endpoint is not a node of the
graph, otherwise enumerates every simple path with at most `cutoff` edges. -/
def allSimplePaths (edges : List Edge) (s t : Token) (cutoff : Nat) :
    Except Err (List (List Token)) :=
  if s ∈ graphNodes edges ∧ t ∈ graphNodes edges then
    .ok (dfsPaths edges t cutoff s [s])
  else .error 1

/-- Truncation toward zero, the behaviour of Python `int(...)` on the
(exactly represented) product; identical to `floor` on nonnegative values. -/
def ratTrunc (q : Rat) : Int := q.num.tdiv (q.den : Int)

/-- Exact product of an integer and a rational
(`intMulRat_eq` below proves it equal to `(n : Rat) * q`; stated through
`Rat.divInt` so that it evaluates by kernel reduction). -/
def intMulRat (n : Int) (q : Rat) : Rat := Rat.divInt (n * q.num) q.den

/-- The hop fee of the source: `fee = (amounts[-1] * edge['fee']) // 10000`. -/
def hopFee (amt : Int) (e : Edge) : Int := Int.fdiv (amt * e.fee) 10000

/-- The next amount of the source:
`int((amounts[-1] - fee) * edge['weight'])`. -/
def hopNext (amt : Int) (e : Edge) : Int :=
  ratTrunc (intMulRat (amt - hopFee amt e) e.weight)

/-- The per-candidate evaluation loop of `find_best_route`: walking the
hops of a path in order, accumulating the hop fees and appending the next
amounts.  Returns the amounts after the input amount, and the total fee;
`none` models the `KeyError` of a missing edge. -/
def walkHops (edges : List Edge) : Token → List Token → Int → Option (List Int × Int)
  | _, [], _ => some ([], 0)
  | u, v :: vs, amt =>
    match edgeLookup edges u v with
    | none => none
    | some e =>
      match walkHops edges v vs (hopNext amt e) with
      | none => none
      | some (amts, tf) => some (hopNext amt e :: amts, hopFee amt e + tf)

/-- Builds the candidate `Route` for one enumerated path: amounts start at
the input amount and gas starts at the base cost 21000 with 100000 added
per hop. -/
def evalRoute (edges : List Edge) (amount : Int) : List Token → Option Route
  | [] => some ⟨[], [amount], 0, 21000⟩
  | u :: rest =>
    match walkHops edges u rest amount with
    | none => none
    | some (amts, tf) => some ⟨u :: rest, amount :: amts, tf, 21000 + 100000 * rest.length⟩

/-- Evaluation of all candidate paths in enumeration order; a failed
evaluation aborts the whole loop (the exception reaches the outer
handler), modelled as `Except.error 2`. -/
def evalAll (edges : List Edge) (amount : Int) : List (List Token) → Except Err (List Route)
  | [] => .ok []
  | p :: ps =>
    match evalRoute edges amount p with
    | none => .error 2
    | some r =>
      match evalAll edges amount ps with
      | .error e => .error e
      | .ok rs => .ok (r :: rs)

/-- The selection loop: starting from the first candidate, a later
candidate replaces the current best only when its `total_fee` is strictly
smaller (`if total_fee < min_total_fee`), so the first candidate attaining
the minimum is kept. -/
def pickBest : Route → List Route → Route
  | r, [] => r
  | r, c :: cs => pickBest (if c.total_fee < r.total_fee then c else r) cs

def selectBest : List Route → Option Route
  | [] => none
  | r :: rs => some (pickBest r rs)

/-- The guarded part of `find_best_route` (the `try` block): enumerate the
simple paths, return `none` when there are no candidates, otherwise
evaluate every candidate and select the best.  An error value models an
exception reaching the `except` handler. -/
def find_best_route_body (edges : List Edge) (s t : Token) (amount : Int) (mh : Nat) :
    Except Err (Option Route) :=
  match allSimplePaths edges s t mh with
  | .error e => .error e
  | .ok paths =>
    if paths = [] then .ok none
    else
      match evalAll edges amount paths with
      | .error e => .error e
      | .ok routes => .ok (selectBest routes)

/-- `find_best_route`: rebuild the graph, return the trivial route when
source and target coincide, otherwise run the guarded search, catching any
exception of the guarded part and returning `none` for it. -/
def find_best_route (env : ChainEnv) (from_token to_token : Token) (amount : Int)
    (max_hops : Nat) : Option Route :=
  if from_token = to_token then some ⟨[from_token], [amount], 0, 21000⟩
  else
    match find_best_route_body (build_graph env) from_token to_token amount max_hops with
    | .ok r => r
    | .error _ => none

/-- The blocking on-chain operations used by `execute_route`: the pool's
`swap(from, to, amount, minOut)` transacted from a given holder, and an
ERC20 `transfer(recipient, amount)` of a given token transacted from a
given holder.  A failed transaction is an `Except.error` carrying the
underlying cause. -/
structure ExecEnv where
  poolAddress : Address
  swap : Token → Token → Int → Int → Address → Except Err TxId
  transfer : Token → Address → Int → Address → Except Err TxId

/-- A transaction request as submitted by `execute_route`, recorded for
the instrumented execution trace. -/
inductive TxRequest where
  | swapReq (fromT toT : Token) (amount minOut : Int) (holder : Address)
  | transferReq (token : Token) (recipient : Address) (amount : Int) (holder : Address)
deriving DecidableEq

/-- The chain's response to one submitted request. -/
def respond (env : ExecEnv) : TxRequest → Except Err TxId
  | .swapReq a b x m h => env.swap a b x m h
  | .transferReq t r a h => env.transfer t r a h

/-- Replays a request list in order, collecting the transaction
identifiers and stopping at the first failure. -/
def respondAll (env : ExecEnv) : List TxRequest → Except Err (List TxId)
  | [] => .ok []
  | rq :: rest =>
    match respond env rq with
    | .error e => .error e
    | .ok tx =>
      match respondAll env rest with
      | .error e => .error e
      | .ok txs => .ok (tx :: txs)

/-- The swap loop of `execute_route`, instrumented with the trace of
submitted requests.  Each hop swaps `amounts[i]` with
`minOut = (amounts[i+1] * 99) // 100` on behalf of the current holder,
and on success the pool address becomes the holder for the next hop.  A
failing swap stops the loop at once, with the underlying cause; reading a
missing amount is the `IndexError` (`Except.error 0`), raised before any
submission of that hop. -/
def execSwapLoop (env : ExecEnv) : Address → List Token → List Int →
    List TxRequest × Except Err (List TxId × Address)
  | holder, t1 :: t2 :: ts, a1 :: a2 :: rest =>
    let minOut := Int.fdiv (a2 * 99) 100
    let rq := TxRequest.swapReq t1 t2 a1 minOut holder
    match env.swap t1 t2 a1 minOut holder with
    | .error e => ([rq], .error e)
    | .ok tx =>
      match execSwapLoop env env.poolAddress (t2 :: ts) (a2 :: rest) with
      | (tr, .error e) => (rq :: tr, .error e)
      | (tr, .ok (txs, h2)) => (rq :: tr, .ok (tx :: txs, h2))
  | _, _ :: _ :: _, _ => ([], .error 0)
  | holder, _, _ => ([], .ok ([], holder))

/-- The final step of `execute_route`: transfer `route.amounts[-1]` of
`route.path[-1]` from the current holder to the recipient and append the
transaction identifier; a missing last element is the `IndexError`
(`Except.error 0`), raised before any submission. -/
def finishTransfer (env : ExecEnv) (recipient : Address) (path : List Token)
    (amounts : List Int) (tr : List TxRequest) (txs : List TxId) (holder : Address) :
    List TxRequest × Except Err (List TxId) :=
  match path.getLast?, amounts.getLast? with
  | some ft, some fa =>
    (tr ++ [TxRequest.transferReq ft recipient fa holder],
      match env.transfer ft recipient fa holder with
      | .error e => .error e
      | .ok tx => .ok (txs ++ [tx]))
  | _, _ => (tr, .error 0)

/-- Continuation after the swap loop: a failed loop propagates its cause
at once, a successful one proceeds to the final transfer. -/
def afterSwaps (env : ExecEnv) (recipient : Address) (path : List Token)
    (amounts : List Int) :
    List TxRequest × Except Err (List TxId × Address) →
      List TxRequest × Except Err (List TxId)
  | (tr, .error e) => (tr, .error e)
  | (tr, .ok (txs, holder)) => finishTransfer env recipient path amounts tr txs holder

/-- `execute_route`, instrumented with the trace of submitted requests:
run the swap loop from the sender, then transfer the last amount of the
last token from the current holder to the recipient; any failure
propagates as the underlying cause. -/
def execute_route (env : ExecEnv) (route : Route) (sender recipient : Address) :
    List TxRequest × Except Err (List TxId) :=
  afterSwaps env recipient route.path route.amounts
    (execSwapLoop env sender route.path route.amounts)

/-- Modelled from the spec: the submission sequence §4.3 prescribes for
`executeRoute` — for each consecutive token pair a swap of `amounts[i]`
with `minOut = floor(amounts[i+1] * 99 / 100)` on behalf of the current
holder, the pool becoming the holder after each swap, then a final
transfer of the last amount to the recipient. -/
def expectedRequests (pool recipient : Address) : Address → List Token → List Int →
    List TxRequest
  | holder, [t], [a] => [TxRequest.transferReq t recipient a holder]
  | holder, t1 :: t2 :: ts, a1 :: a2 :: rest =>
    TxRequest.swapReq t1 t2 a1 (Int.fdiv (a2 * 99) 100) holder ::
      expectedRequests pool recipient pool (t2 :: ts) (a2 :: rest)
  | _, _, _ => []

/-- Hop-by-hop consistency of an amounts list with its path, per the
per-hop recurrence of the evaluation loop: each next amount is
`int((amt - fee) * weight)` for the looked-up edge. -/
def amountsOk (edges : List Edge) : List Token → List Int → Bool
  | _ :: [], _ :: [] => true
  | u :: v :: ts, a :: b :: rest =>
    match edgeLookup edges u v with
    | none => false
    | some e => decide (b = hopNext a e) && amountsOk edges (v :: ts) (b :: rest)
  | _, _ => false

/-- Independent recomputation of the hop fees from a path and its amounts
list: `fee_i = (amounts[i] * feeBps_i) // 10000` for each hop. -/
def feesAlong (edges : List Edge) : List Token → List Int → Option (List Int)
  | _ :: [], _ :: [] => some []
  | u :: v :: ts, a :: rest =>
    match edgeLookup edges u v, feesAlong edges (v :: ts) rest with
    | some e, some fees => some (hopFee a e :: fees)
    | _, _ => none
  | _, _ => none

/-- Concrete three-token snapshot: every pair is liquid, all prices are 1
and the pool fee is 30 basis points. -/
def env3 : ChainEnv where
  stablecoins := [0, 1, 2]
  getBalance := fun _ => some 1000000
  getMinLiquidity := fun _ => some 1000
  getStablecoinPrice := fun _ => some 1
  swapFee := some 30

/-- Concrete snapshot in which the registry yields zero supported tokens. -/
def envEmpty : ChainEnv where
  stablecoins := []
  getBalance := fun _ => some 0
  getMinLiquidity := fun _ => some 0
  getStablecoinPrice := fun _ => some 1
  swapFee := some 30

/-- The route `find_best_route env3 0 2 10000 3` returns. -/
def routeC1 : Route := ⟨[0, 2], [10000, 9970], 30, 121000⟩

/-- A concrete two-hop route over `env3`. -/
def route3 : Route := ⟨[0, 1, 2], [10000, 9970, 9941], 59, 221000⟩

/-- A concrete single-node route. -/
def routeS : Route := ⟨[4], [500], 0, 21000⟩

/-- Execution environment in which every transaction succeeds. -/
def execEnvOk : ExecEnv where
  poolAddress := 99
  swap := fun _ _ _ _ _ => .ok 11
  transfer := fun _ _ _ _ => .ok 22

/-- Execution environment in which the first swap (submitted by the
sender) succeeds with identifier 11 and every later swap (submitted by
the pool, address 99) fails with cause 77. -/
def execEnvFailA : ExecEnv where
  poolAddress := 99
  swap := fun _ _ _ _ h => if h = 99 then .error 77 else .ok 11
  transfer := fun _ _ _ _ => .ok 22

/-- Same as `execEnvFailA` except that the first swap commits a different
transaction identifier, 12. -/
def execEnvFailB : ExecEnv where
  poolAddress := 99
  swap := fun _ _ _ _ h => if h = 99 then .error 77 else .ok 12
  transfer := fun _ _ _ _ => .ok 22

/-- A simple path from `s` to `t` of at most `mh` hops in the graph:
starts at `s`, ends at `t`, repeats no node, has at most `mh + 1` nodes,
and each consecutive pair is an edge. -/
def simplePathWithin (edges : List Edge) (s t : Token) (mh : Nat) (p : List Token) : Prop :=
  p.head? = some s ∧ p.getLast? = some t ∧ p.Nodup ∧ p.length ≤ mh + 1 ∧ chainEdges edges p

theorem intMulRat_eq (n : Int) (q : Rat) : intMulRat n q = (n : Rat) * q := by
  rw [intMulRat]
  conv_rhs => rw [← Rat.num_divInt_den q, Rat.intCast_eq_divInt]
  rw [Rat.divInt_mul_divInt _ _ one_ne_zero (by exact_mod_cast q.den_nz), one_mul]

theorem hopNext_eq_mul (amt : Int) (e : Edge) :
    hopNext amt e = ratTrunc (((amt - hopFee amt e : Int) : Rat) * e.weight) := by
  rw [hopNext, intMulRat_eq]

theorem pickBest_le_head (r : Route) (rs : List Route) :
    (pickBest r rs).total_fee ≤ r.total_fee := by
  induction rs generalizing r with
  | nil => exact le_refl _
  | cons c cs ih =>
    have hstep : pickBest r (c :: cs) =
        pickBest (if c.total_fee < r.total_fee then c else r) cs := rfl
    rw [hstep]
    by_cases hlt : c.total_fee < r.total_fee
    · rw [if_pos hlt]; exact le_trans (ih c) (le_of_lt hlt)
    · rw [if_neg hlt]; exact ih r

theorem pickBest_min (r : Route) (rs : List Route) :
    ∀ c ∈ r :: rs, (pickBest r rs).total_fee ≤ c.total_fee := by
  induction rs generalizing r with
  | nil =>
    intro c hc
    have hc2 : c = r := by simpa using hc
    rw [hc2]
    exact le_refl _
  | cons c cs ih =>
    have hstep : pickBest r (c :: cs) =
        pickBest (if c.total_fee < r.total_fee then c else r) cs := rfl
    have hle_c : (pickBest r (c :: cs)).total_fee ≤ c.total_fee := by
      rw [hstep]
      by_cases hlt : c.total_fee < r.total_fee
      · rw [if_pos hlt]; exact pickBest_le_head c cs
      · rw [if_neg hlt]
        exact le_trans (pickBest_le_head r cs) (le_of_not_lt hlt)
    intro x hx
    rcases List.mem_cons.mp hx with h | h
    · rw [h]; exact pickBest_le_head r (c :: cs)
    · rcases List.mem_cons.mp h with h2 | h2
      · rw [h2]; exact hle_c
      · rw [hstep]
        exact ih (if c.total_fee < r.total_fee then c else r) x (List.mem_cons_of_mem _ h2)

theorem pickBest_mem (r : Route) (rs : List Route) : pickBest r rs ∈ r :: rs := by
  induction rs generalizing r with
  | nil => simp [pickBest]
  | cons c cs ih =>
    have hstep : pickBest r (c :: cs) =
        pickBest (if c.total_fee < r.total_fee then c else r) cs := rfl
    rw [hstep]
    rcases List.mem_cons.mp (ih (if c.total_fee < r.total_fee then c else r)) with h1 | h1
    · rw [h1]
      by_cases hlt : c.total_fee < r.total_fee
      · rw [if_pos hlt]; exact List.mem_cons_of_mem _ (List.mem_cons_self _ _)
      · rw [if_neg hlt]; exact List.mem_cons_self _ _
    · exact List.mem_cons_of_mem _ (List.mem_cons_of_mem _ h1)

theorem pickBest_first (r : Route) (rs : List Route) :
    ∃ pre post, r :: rs = pre ++ pickBest r rs :: post ∧
      ∀ c ∈ pre, (pickBest r rs).total_fee < c.total_fee := by
  induction rs generalizing r with
  | nil => exact ⟨[], [], rfl, by intro c hc; cases hc⟩
  | cons c cs ih =>
    have hstep : pickBest r (c :: cs) =
        pickBest (if c.total_fee < r.total_fee then c else r) cs := rfl
    by_cases hlt : c.total_fee < r.total_fee
    · have hb : pickBest r (c :: cs) = pickBest c cs := by rw [hstep, if_pos hlt]
      obtain ⟨pre, post, heq, hpre⟩ := ih c
      refine ⟨r :: pre, post, ?_, ?_⟩
      · rw [hb, List.cons_append, ← heq]
      · intro x hx
        rcases List.mem_cons.mp hx with h | h
        · rw [h, hb]
          exact lt_of_le_of_lt (pickBest_le_head c cs) hlt
        · rw [hb]; exact hpre x h
    · have hb : pickBest r (c :: cs) = pickBest r cs := by rw [hstep, if_neg hlt]
      obtain ⟨pre, post, heq, hpre⟩ := ih r
      cases pre with
      | nil =>
        simp only [List.nil_append] at heq
        injection heq with h1 h2
        refine ⟨[], c :: cs, ?_, ?_⟩
        · rw [hb, ← h1, List.nil_append]
        · intro x hx; cases hx
      | cons p pre2 =>
        rw [List.cons_append] at heq
        injection heq with h1 h2
        have hbr : (pickBest r cs).total_fee < r.total_fee := by
          have hp := hpre p (List.mem_cons_self p pre2)
          rw [← h1] at hp
          exact hp
        refine ⟨r :: c :: pre2, post, ?_, ?_⟩
        · rw [hb, List.cons_append, List.cons_append, ← h2]
        · intro x hx
          rcases List.mem_cons.mp hx with h | h
          · rw [h, hb]; exact hbr
          · rcases List.mem_cons.mp h with h3 | h3
            · rw [h3, hb]
              exact lt_of_lt_of_le hbr (le_of_not_lt hlt)
            · rw [hb]; exact hpre x (List.mem_cons_of_mem _ h3)

theorem evalAll_ok_forall (edges : List Edge) (amount : Int) :
    ∀ (ps : List (List Token)) (rs : List Route), evalAll edges amount ps = .ok rs →
      List.Forall₂ (fun p r => evalRoute edges amount p = some r) ps rs := by
  intro ps
  induction ps with
  | nil =>
    intro rs h
    simp only [evalAll] at h
    injection h with h2
    rw [← h2]
    exact List.Forall₂.nil
  | cons p ps ih =>
    intro rs h
    simp only [evalAll] at h
    cases he : evalRoute edges amount p with
    | none => rw [he] at h; cases h
    | some r =>
      rw [he] at h
      cases hrest : evalAll edges amount ps with
      | error e => rw [hrest] at h; cases h
      | ok rs2 =>
        rw [hrest] at h
        injection h with h2
        rw [← h2]
        exact List.Forall₂.cons he (ih rs2 hrest)

theorem forall₂_eval_mem {edges : List Edge} {amount : Int} :
    ∀ {ps : List (List Token)} {rs : List Route},
      List.Forall₂ (fun p r => evalRoute edges amount p = some r) ps rs →
      ∀ r ∈ rs, ∃ p ∈ ps, evalRoute edges amount p = some r := by
  intro ps rs h
  induction h with
  | nil => intro r hr; cases hr
  | cons hpr hrest ih =>
    intro r hr
    rcases List.mem_cons.mp hr with h1 | h1
    · exact ⟨_, List.mem_cons_self _ _, by rw [← h1] at hpr; exact hpr⟩
    · obtain ⟨p, hp, hR⟩ := ih r h1
      exact ⟨p, List.mem_cons_of_mem _ hp, hR⟩

theorem evalRoute_cons (edges : List Edge) (amount : Int) (u : Token) (rest : List Token)
    (r : Route) (h : evalRoute edges amount (u :: rest) = some r) :
    ∃ amts tf, walkHops edges u rest amount = some (amts, tf) ∧
      r = ⟨u :: rest, amount :: amts, tf, 21000 + 100000 * rest.length⟩ := by
  simp only [evalRoute] at h
  cases hw : walkHops edges u rest amount with
  | none => rw [hw] at h; cases h
  | some x =>
    obtain ⟨amts, tf⟩ := x
    rw [hw] at h
    injection h with h2
    exact ⟨amts, tf, rfl, h2.symm⟩

theorem walkHops_spec (edges : List Edge) :
    ∀ (rest : List Token) (u : Token) (amt : Int) (amts : List Int) (tf : Int),
      walkHops edges u rest amt = some (amts, tf) →
      amts.length = rest.length ∧
      amountsOk edges (u :: rest) (amt :: amts) = true ∧
      ∃ fees, feesAlong edges (u :: rest) (amt :: amts) = some fees ∧ tf = fees.sum := by
  intro rest
  induction rest with
  | nil =>
    intro u amt amts tf h
    simp only [walkHops] at h
    injection h with h2
    obtain ⟨h3, h4⟩ := Prod.mk.injEq .. ▸ h2
    rw [← h3, ← h4]
    exact ⟨rfl, rfl, [], rfl, rfl⟩
  | cons v vs ih =>
    intro u amt amts tf h
    simp only [walkHops] at h
    split at h
    · cases h
    · next e hl =>
      split at h
      · cases h
      · next amts2 tf2 hw =>
        injection h with h2
        obtain ⟨h3, h4⟩ := Prod.mk.injEq .. ▸ h2
        obtain ⟨hlen, hok, fees2, hfees, hsum⟩ := ih v (hopNext amt e) amts2 tf2 hw
        rw [← h3, ← h4]
        refine ⟨by simp [hlen], ?_, hopFee amt e :: fees2, ?_, ?_⟩
        · simp only [amountsOk, hl]
          simp [hok]
        · simp only [feesAlong, hl, hfees]
        · rw [List.sum_cons, hsum]

theorem getLast?_append_single (l : List Token) (a : Token) :
    (l ++ [a]).getLast? = some a := by
  induction l with
  | nil => rfl
  | cons x xs ih =>
    rw [List.cons_append]
    cases hxs : xs ++ [a] with
    | nil => exact absurd hxs (by simp)
    | cons y ys =>
      rw [List.getLast?_cons_cons, ← hxs]
      exact ih

theorem successors_edge (edges : List Edge) (u w : Token) (hw : w ∈ successors edges u) :
    hasEdgeB edges u w = true := by
  simp only [successors, List.mem_map, List.mem_filter] at hw
  obtain ⟨e, ⟨he, hsrc⟩, hdst⟩ := hw
  simp only [hasEdgeB, edgeLookup]
  have hfind : ∃ x, List.find? (fun e => e.src = u && e.dst = w) edges = some x := by
    rw [← Option.isSome_iff_exists, List.find?_isSome]
    refine ⟨e, he, ?_⟩
    simp only [Bool.and_eq_true, decide_eq_true_eq]
    exact ⟨of_decide_eq_true hsrc, hdst⟩
  obtain ⟨x, hx⟩ := hfind
  rw [hx]
  rfl

theorem chainEdges_snoc (edges : List Edge) (visited : List Token) (u w : Token)
    (hch : chainEdges edges visited) (hlast : visited.getLast? = some u)
    (hedge : hasEdgeB edges u w = true) : chainEdges edges (visited ++ [w]) := by
  rw [chainEdges, List.chain'_append]
  refine ⟨hch, List.chain'_singleton w, ?_⟩
  intro x hx y hy
  rw [hlast] at hx
  injection hx with hx
  have hy2 : w = y := by simpa using hy
  rw [← hx, ← hy2]
  exact hedge

theorem dfsPaths_sound (edges : List Edge) (tgt : Token) :
    ∀ (b : Nat) (u : Token) (visited p : List Token),
      p ∈ dfsPaths edges tgt b u visited →
      visited.getLast? = some u →
      ∃ ext, ext ≠ [] ∧ p = visited ++ ext ∧ p.getLast? = some tgt ∧
        ext.length ≤ b ∧ (∀ x ∈ ext, x ∉ visited) ∧
        (visited.Nodup → p.Nodup) ∧
        (chainEdges edges visited → chainEdges edges p) := by
  intro b
  induction b with
  | zero =>
    intro u visited p hp _
    simp [dfsPaths] at hp
  | succ b ih =>
    intro u visited p hp hlast
    simp only [dfsPaths] at hp
    rw [List.mem_flatMap] at hp
    obtain ⟨w, hw, hpw⟩ := hp
    by_cases hvis : w ∈ visited
    · rw [if_pos hvis] at hpw; cases hpw
    rw [if_neg hvis] at hpw
    have hedge : hasEdgeB edges u w = true := successors_edge edges u w hw
    by_cases htgt : w = tgt
    · rw [if_pos htgt] at hpw
      have hp2 : p = visited ++ [w] := by simpa using hpw
      refine ⟨[w], by simp, hp2, ?_, by simp, ?_, ?_, ?_⟩
      · rw [hp2, getLast?_append_single, htgt]
      · intro x hx
        have : x = w := by simpa using hx
        rw [this]; exact hvis
      · intro hnd
        rw [hp2, List.nodup_append]
        exact ⟨hnd, List.nodup_singleton w, by
          intro x hx hx2
          have : x = w := by simpa using hx2
          rw [this] at hx
          exact hvis hx⟩
      · intro hch
        rw [hp2]
        exact chainEdges_snoc edges visited u w hch hlast hedge
    · rw [if_neg htgt] at hpw
      have hlast2 : (visited ++ [w]).getLast? = some w := getLast?_append_single visited w
      obtain ⟨ext2, hne2, hp2, hplast, hlen2, hnotin2, hnd2, hch2⟩ :=
        ih w (visited ++ [w]) p hpw hlast2
      refine ⟨w :: ext2, by simp, ?_, hplast, ?_, ?_, ?_, ?_⟩
      · rw [hp2, List.append_assoc]
        rfl
      · simp only [List.length_cons]
        omega
      · intro x hx
        rcases List.mem_cons.mp hx with h1 | h1
        · rw [h1]; exact hvis
        · have := hnotin2 x h1
          intro hx2
          exact this (List.mem_append_left _ hx2)
      · intro hnd
        apply hnd2
        rw [List.nodup_append]
        exact ⟨hnd, List.nodup_singleton w, by
          intro x hx hx2
          have : x = w := by simpa using hx2
          rw [this] at hx
          exact hvis hx⟩
      · intro hch
        exact hch2 (chainEdges_snoc edges visited u w hch hlast hedge)

theorem find_best_route_some_elim (env : ChainEnv) (ft tt : Token) (amount : Int)
    (mh : Nat) (r : Route) (hne : ft ≠ tt)
    (h : find_best_route env ft tt amount mh = some r) :
    ∃ paths routes,
      allSimplePaths (build_graph env) ft tt mh = .ok paths ∧
      evalAll (build_graph env) amount paths = .ok routes ∧
      selectBest routes = some r := by
  rw [find_best_route, if_neg hne] at h
  cases hb : find_best_route_body (build_graph env) ft tt amount mh with
  | error e => rw [hb] at h; cases h
  | ok ro =>
    rw [hb] at h
    have h2 : ro = some r := h
    rw [find_best_route_body] at hb
    split at hb
    · cases hb
    · next paths hps =>
      split at hb
      · injection hb with hb2
        rw [← hb2] at h2
        cases h2
      · split at hb
        · cases hb
        · next routes hev =>
          injection hb with hb2
          rw [← hb2] at h2
          exact ⟨paths, routes, hps, hev, h2⟩

theorem find_best_route_route_shape (env : ChainEnv) (ft tt : Token) (amount : Int)
    (mh : Nat) (r : Route) (hne : ft ≠ tt)
    (h : find_best_route env ft tt amount mh = some r) :
    ∃ ext amts tf,
      r = ⟨ft :: ext, amount :: amts, tf, 21000 + 100000 * ext.length⟩ ∧
      walkHops (build_graph env) ft ext amount = some (amts, tf) := by
  obtain ⟨paths, routes, hps, hev, hsel⟩ :=
    find_best_route_some_elim env ft tt amount mh r hne h
  cases routes with
  | nil => cases hsel
  | cons r0 rs =>
    have hr : pickBest r0 rs = r := by
      simp only [selectBest] at hsel
      injection hsel
    have hmem : r ∈ r0 :: rs := hr ▸ pickBest_mem r0 rs
    obtain ⟨p, hpmem, hpeval⟩ := forall₂_eval_mem (evalAll_ok_forall _ _ _ _ hev) r hmem
    have hps2 : paths = dfsPaths (build_graph env) tt mh ft [ft] := by
      rw [allSimplePaths] at hps
      split at hps
      · injection hps with h3; exact h3.symm
      · cases hps
    obtain ⟨ext, hextne, hpeq, hplast, hextlen, hnotin, hnd, hch⟩ :=
      dfsPaths_sound (build_graph env) tt mh ft [ft] p (hps2 ▸ hpmem) rfl
    have hpcons : p = ft :: ext := by rw [hpeq]; rfl
    rw [hpcons] at hpeval
    obtain ⟨amts, tf, hwalk, hreq⟩ := evalRoute_cons (build_graph env) amount ft ext r hpeval
    exact ⟨ext, amts, tf, hreq, hwalk⟩

/-- C5: for every snapshot, token, amount and hop limit, a query with equal
source and target returns the trivial single-node route with the input
amount, zero fee and the base transfer gas cost 21000. -/
theorem c5_same_token_trivial (env : ChainEnv) (t : Token) (amount : Int) (mh : Nat) :
    find_best_route env t t amount mh = some ⟨[t], [amount], 0, 21000⟩ := by
  rw [find_best_route, if_pos rfl]

/-- C2: every route returned by `find_best_route` has as many amounts as
path entries, starts its amounts at the input amount, satisfies the
per-hop fee and truncated-output recurrence of the evaluation loop, and
its total fee equals the sum of the hop fees recomputed independently
from the amounts and the edge fees. -/
theorem c2_route_amounts (env : ChainEnv) (ft tt : Token) (amount : Int) (mh : Nat)
    (r : Route) (h : find_best_route env ft tt amount mh = some r) :
    r.amounts.length = r.path.length ∧ r.amounts.head? = some amount ∧
    amountsOk (build_graph env) r.path r.amounts = true ∧
    ∃ fees, feesAlong (build_graph env) r.path r.amounts = some fees ∧
      r.total_fee = fees.sum := by
  by_cases hne : ft = tt
  · rw [find_best_route, if_pos hne] at h
    injection h with h2
    rw [← h2]
    exact ⟨rfl, rfl, rfl, [], rfl, rfl⟩
  · obtain ⟨ext, amts, tf, hreq, hwalk⟩ :=
      find_best_route_route_shape env ft tt amount mh r hne h
    obtain ⟨hlen, hok, fees, hfees, hsum⟩ :=
      walkHops_spec (build_graph env) ext ft amount amts tf hwalk
    rw [hreq]
    exact ⟨by simp [hlen], rfl, hok, fees, hfees, hsum⟩

/-- C8: every route returned by `find_best_route` estimates gas as the
base transfer cost 21000 plus 100000 for each hop of its path. -/
theorem c8_estimated_gas (env : ChainEnv) (ft tt : Token) (amount : Int) (mh : Nat)
    (r : Route) (h : find_best_route env ft tt amount mh = some r) :
    r.estimated_gas = 21000 + 100000 * ((r.path.length - 1 : Nat) : Int) := by
  by_cases hne : ft = tt
  · rw [find_best_route, if_pos hne] at h
    injection h with h2
    rw [← h2]
    rfl
  · obtain ⟨ext, amts, tf, hreq, hwalk⟩ :=
      find_best_route_route_shape env ft tt amount mh r hne h
    rw [hreq]
    simp

/-- C9: with distinct endpoints, any exception of the guarded search body
(path enumeration or candidate evaluation, after the graph rebuild) is
caught by `find_best_route`, which returns `none` instead of propagating
it. -/
theorem c9_search_errors_absorbed (env : ChainEnv) (ft tt : Token) (amount : Int)
    (mh : Nat) (e : Err) (hne : ft ≠ tt)
    (h : find_best_route_body (build_graph env) ft tt amount mh = .error e) :
    find_best_route env ft tt amount mh = none := by
  rw [find_best_route, if_neg hne, h]

/-- C1: a route returned by `find_best_route` for distinct endpoints has a
path that is a simple path (no repeated node) from the source to the
target with at most `max_hops` hops in the freshly rebuilt graph, appears
among the enumerated candidate paths, its total fee is minimal among all
evaluated candidates, and among candidates of equal minimal fee the
returned route is the first in enumeration order. -/
theorem c1_best_route_minimal (env : ChainEnv) (ft tt : Token) (amount : Int) (mh : Nat)
    (r : Route) (hne : ft ≠ tt) (h : find_best_route env ft tt amount mh = some r) :
    ∃ paths routes,
      allSimplePaths (build_graph env) ft tt mh = .ok paths ∧
      evalAll (build_graph env) amount paths = .ok routes ∧
      r.path ∈ paths ∧
      simplePathWithin (build_graph env) ft tt mh r.path ∧
      (∀ c ∈ routes, r.total_fee ≤ c.total_fee) ∧
      ∃ pre post, routes = pre ++ r :: post ∧ ∀ c ∈ pre, r.total_fee < c.total_fee := by
  obtain ⟨paths, routes, hps, hev, hsel⟩ :=
    find_best_route_some_elim env ft tt amount mh r hne h
  cases routes with
  | nil => cases hsel
  | cons r0 rs =>
    have hr : pickBest r0 rs = r := by
      simp only [selectBest] at hsel
      injection hsel
    have hmem : r ∈ r0 :: rs := hr ▸ pickBest_mem r0 rs
    have hmin : ∀ c ∈ r0 :: rs, r.total_fee ≤ c.total_fee := by
      intro c hc
      rw [← hr]
      exact pickBest_min r0 rs c hc
    have hfirst : ∃ pre post, r0 :: rs = pre ++ r :: post ∧
        ∀ c ∈ pre, r.total_fee < c.total_fee := by
      obtain ⟨pre, post, heq, hpre⟩ := pickBest_first r0 rs
      rw [hr] at heq hpre
      exact ⟨pre, post, heq, hpre⟩
    obtain ⟨p, hpmem, hpeval⟩ := forall₂_eval_mem (evalAll_ok_forall _ _ _ _ hev) r hmem
    have hps2 : paths = dfsPaths (build_graph env) tt mh ft [ft] := by
      rw [allSimplePaths] at hps
      split at hps
      · injection hps with h3; exact h3.symm
      · cases hps
    obtain ⟨ext, hextne, hpeq, hplast, hextlen, hnotin, hnd, hch⟩ :=
      dfsPaths_sound (build_graph env) tt mh ft [ft] p (hps2 ▸ hpmem) rfl
    have hpcons : p = ft :: ext := by rw [hpeq]; rfl
    have hrpath : r.path = p := by
      rw [hpcons] at hpeval
      obtain ⟨amts, tf, hwalk, hreq⟩ := evalRoute_cons (build_graph env) amount ft ext r hpeval
      rw [hreq, hpcons]
    refine ⟨paths, r0 :: rs, hps, hev, ?_, ⟨?_, ?_, ?_, ?_, ?_⟩, hmin, hfirst⟩
    · rw [hrpath]; exact hpmem
    · rw [hrpath, hpcons]; rfl
    · rw [hrpath]; exact hplast
    · rw [hrpath]; exact hnd (List.nodup_singleton ft)
    · rw [hrpath, hpcons]
      simp only [List.length_cons]
      omega
    · rw [hrpath]
      exact hch (List.chain'_singleton ft)

/-- C6 counterexample: with a registry yielding zero supported tokens but
equal source and target, `find_best_route` still returns the trivial
route, not `none`, so the claim fails as universally stated. -/
theorem c6_counterexample :
    envEmpty.stablecoins = [] ∧
    find_best_route envEmpty 7 7 5 3 = some ⟨[7], [5], 0, 21000⟩ ∧
    find_best_route envEmpty 7 7 5 3 ≠ none := by
  refine ⟨rfl, by decide, by decide⟩

/-- C6 amended: for distinct source and target, if the registry yields
zero supported tokens, or no simple path of at most `max_hops` hops from
source to target exists in the rebuilt graph, then `find_best_route`
returns `none` (and, being a total function, raises nothing). -/
theorem c6_amended_no_route_none (env : ChainEnv) (ft tt : Token) (amount : Int)
    (mh : Nat) (hne : ft ≠ tt)
    (h : env.stablecoins = [] ∨ ∀ p, ¬ simplePathWithin (build_graph env) ft tt mh p) :
    find_best_route env ft tt amount mh = none := by
  rw [find_best_route, if_neg hne]
  cases hb : find_best_route_body (build_graph env) ft tt amount mh with
  | error e => rfl
  | ok ro =>
    show ro = none
    rw [find_best_route_body] at hb
    split at hb
    · cases hb
    · next paths hps =>
      have hpaths_nil : paths = [] := by
        rcases h with hzero | hnopath
        · exfalso
          rw [allSimplePaths] at hps
          split at hps
          · next hcond =>
            have hs := hcond.1
            rw [build_graph, hzero] at hs
            simp [graphNodes] at hs
          · cases hps
        · by_contra hne2
          obtain ⟨p, hp⟩ := List.exists_mem_of_ne_nil paths hne2
          have hps2 : paths = dfsPaths (build_graph env) tt mh ft [ft] := by
            rw [allSimplePaths] at hps
            split at hps
            · injection hps with h3; exact h3.symm
            · cases hps
          obtain ⟨ext, hextne, hpeq, hplast, hextlen, hnotin, hnd, hch⟩ :=
            dfsPaths_sound (build_graph env) tt mh ft [ft] p (hps2 ▸ hp) rfl
          have hpcons : p = ft :: ext := by rw [hpeq]; rfl
          refine hnopath p ⟨?_, hplast, ?_, ?_, ?_⟩
          · rw [hpcons]; rfl
          · exact hnd (List.nodup_singleton ft)
          · rw [hpcons]
            simp only [List.length_cons]
            omega
          · exact hch (List.chain'_singleton ft)
      rw [if_pos hpaths_nil] at hb
      injection hb with hb2
      exact hb2.symm

theorem mkEdge_some_fields (env : ChainEnv) (a b : Token) (e : Edge)
    (h : mkEdge env a b = some e) : e.src = a ∧ e.dst = b := by
  rw [mkEdge] at h
  split at h
  · cases h
  · split at h
    · split at h
      · split at h
        · split at h
          · cases h
          · injection h with h2
            rw [← h2]
            exact ⟨rfl, rfl⟩
        · cases h
      · cases h
    · cases h

theorem mem_build_graph (env : ChainEnv) (e : Edge) :
    e ∈ build_graph env ↔
      ∃ a ∈ env.stablecoins, ∃ b ∈ env.stablecoins, mkEdge env a b = some e := by
  rw [build_graph]
  simp [List.mem_flatMap, List.mem_filterMap]

theorem mkEdge_eval (env : ChainEnv) (a b : Token) (pa pb f bal minL : Int)
    (hab : a ≠ b)
    (hpa : env.getStablecoinPrice a = some pa) (hpb : env.getStablecoinPrice b = some pb)
    (hpb0 : pb ≠ 0) (hf : env.swapFee = some f)
    (hbal : env.getBalance b = some bal) (hminl : env.getMinLiquidity b = some minL) :
    mkEdge env a b =
      if minL ≤ bal then some ⟨a, b, Rat.divInt pa pb, f⟩ else none := by
  simp only [mkEdge, if_neg hab, hbal, hminl, hpa, hpb, hf, if_neg hpb0]

/-- C7: for distinct supported tokens whose price, fee, balance and
minimum-liquidity queries succeed (with a nonzero destination price), the
edge from the first to the second exists in the rebuilt graph exactly when
the destination pool balance reaches the configured minimum liquidity;
such an edge carries weight `price(A)/price(B)` and the pool's swap fee;
and independently of any other pair, every pair whose own edge
construction succeeds contributes its edge to the graph. -/
theorem c7_edge_condition (env : ChainEnv) (a b : Token) (pa pb f : Int)
    (hab : a ≠ b) (ha : a ∈ env.stablecoins) (hb : b ∈ env.stablecoins)
    (hpa : env.getStablecoinPrice a = some pa) (hpb : env.getStablecoinPrice b = some pb)
    (hpb0 : pb ≠ 0) (hf : env.swapFee = some f) :
    ((∃ e ∈ build_graph env, e.src = a ∧ e.dst = b) ↔
      ∃ bal minL, env.getBalance b = some bal ∧ env.getMinLiquidity b = some minL ∧
        minL ≤ bal)
    ∧ (∀ e ∈ build_graph env, e.src = a → e.dst = b →
        e.weight = (pa : Rat) / (pb : Rat) ∧ e.fee = f)
    ∧ (∀ c d e2, c ∈ env.stablecoins → d ∈ env.stablecoins →
        mkEdge env c d = some e2 → e2 ∈ build_graph env) := by
  have hedge_ab : ∀ e : Edge, e ∈ build_graph env → e.src = a → e.dst = b →
      mkEdge env a b = some e := by
    intro e hmem hsrc hdst
    obtain ⟨a2, ha2, b2, hb2, hmk⟩ := (mem_build_graph env e).mp hmem
    obtain ⟨hs2, hd2⟩ := mkEdge_some_fields env a2 b2 e hmk
    rw [hsrc] at hs2
    rw [hdst] at hd2
    rw [← hs2, ← hd2] at hmk
    exact hmk
  refine ⟨⟨?_, ?_⟩, ?_, ?_⟩
  · rintro ⟨e, hmem, hsrc, hdst⟩
    have hmk := hedge_ab e hmem hsrc hdst
    cases hbal : env.getBalance b with
    | none =>
      rw [mkEdge, if_neg hab, hbal] at hmk
      cases hmk
    | some bal =>
      cases hminl : env.getMinLiquidity b with
      | none =>
        rw [mkEdge, if_neg hab, hbal, hminl] at hmk
        cases hmk
      | some minL =>
        refine ⟨bal, minL, rfl, rfl, ?_⟩
        rw [mkEdge_eval env a b pa pb f bal minL hab hpa hpb hpb0 hf hbal hminl] at hmk
        by_contra hle
        rw [if_neg hle] at hmk
        cases hmk
  · rintro ⟨bal, minL, hbal, hminl, hle⟩
    refine ⟨⟨a, b, Rat.divInt pa pb, f⟩, ?_, rfl, rfl⟩
    rw [mem_build_graph]
    refine ⟨a, ha, b, hb, ?_⟩
    rw [mkEdge_eval env a b pa pb f bal minL hab hpa hpb hpb0 hf hbal hminl, if_pos hle]
  · intro e hmem hsrc hdst
    have hmk := hedge_ab e hmem hsrc hdst
    cases hbal : env.getBalance b with
    | none =>
      rw [mkEdge, if_neg hab, hbal] at hmk
      cases hmk
    | some bal =>
      cases hminl : env.getMinLiquidity b with
      | none =>
        rw [mkEdge, if_neg hab, hbal, hminl] at hmk
        cases hmk
      | some minL =>
        rw [mkEdge_eval env a b pa pb f bal minL hab hpa hpb hpb0 hf hbal hminl] at hmk
        by_cases hle : minL ≤ bal
        · rw [if_pos hle] at hmk
          injection hmk with h2
          rw [← h2]
          exact ⟨Rat.divInt_eq_div pa pb, rfl⟩
        · rw [if_neg hle] at hmk
          cases hmk
  · intro c d e2 hc hd hmk
    rw [mem_build_graph]
    exact ⟨c, hc, d, hd, hmk⟩

theorem getLast?_some_of_ne_nil {α : Type} (l : List α) (h : l ≠ []) :
    ∃ a, l.getLast? = some a := by
  induction l with
  | nil => exact absurd rfl h
  | cons x xs ih =>
    cases xs with
    | nil => exact ⟨x, rfl⟩
    | cons y ys =>
      obtain ⟨a, ha⟩ := ih (by simp)
      exact ⟨a, by rw [List.getLast?_cons_cons]; exact ha⟩

theorem respondAll_append_ok (env : ExecEnv) :
    ∀ (l1 : List TxRequest) (xs : List TxId) (rq : TxRequest) (tx : TxId),
      respondAll env l1 = .ok xs → respond env rq = .ok tx →
      respondAll env (l1 ++ [rq]) = .ok (xs ++ [tx]) := by
  intro l1
  induction l1 with
  | nil =>
    intro xs rq tx h1 h2
    simp only [respondAll] at h1
    injection h1 with h3
    rw [← h3]
    simp only [List.nil_append, respondAll, h2]
  | cons q qs ih =>
    intro xs rq tx h1 h2
    simp only [respondAll] at h1
    split at h1
    · cases h1
    · next tx0 hq =>
      split at h1
      · cases h1
      · next txs0 hqs =>
        injection h1 with h3
        rw [← h3]
        rw [List.cons_append]
        simp only [respondAll, hq]
        have hih := ih txs0 rq tx hqs h2
        rw [hih]
        rfl

theorem execSwapLoop_ok_len (env : ExecEnv) :
    ∀ (path : List Token) (amounts : List Int) (holder : Address) (tr : List TxRequest)
      (txs : List TxId) (h2 : Address),
      execSwapLoop env holder path amounts = (tr, .ok (txs, h2)) →
      txs.length = path.length - 1 ∧
      (path.length ≤ 1 → h2 = holder ∧ tr = [] ∧ txs = []) ∧
      (2 ≤ path.length → h2 = env.poolAddress) := by
  intro path
  induction path with
  | nil =>
    intro amounts holder tr txs h2 h
    simp only [execSwapLoop, Prod.mk.injEq, Except.ok.injEq] at h
    obtain ⟨h3, h4, h5⟩ := h
    refine ⟨by rw [← h4]; rfl, fun _ => ⟨h5.symm, h3.symm, h4.symm⟩, fun hge => by
      exfalso; simp only [List.length_nil] at hge; omega⟩
  | cons t1 rest ih =>
    intro amounts holder tr txs h2 h
    cases rest with
    | nil =>
      simp only [execSwapLoop, Prod.mk.injEq, Except.ok.injEq] at h
      obtain ⟨h3, h4, h5⟩ := h
      refine ⟨by rw [← h4]; rfl, fun _ => ⟨h5.symm, h3.symm, h4.symm⟩, fun hge => by
        exfalso; simp only [List.length_cons, List.length_nil] at hge; omega⟩
    | cons t2 ts =>
      cases amounts with
      | nil => simp [execSwapLoop] at h
      | cons a1 amounts2 =>
        cases amounts2 with
        | nil => simp [execSwapLoop] at h
        | cons a2 rest2 =>
          simp only [execSwapLoop] at h
          split at h
          · simp at h
          · next tx hswap =>
            split at h
            · simp at h
            · next tr0 txs0 h20 hrec =>
              simp only [Prod.mk.injEq, Except.ok.injEq] at h
              obtain ⟨h3, h4, h5⟩ := h
              obtain ⟨hlen0, _, hpool0⟩ := ih (a2 :: rest2) env.poolAddress tr0 txs0 h20 hrec
              refine ⟨?_, ?_, fun _ => ?_⟩
              · rw [← h4]
                simp only [List.length_cons] at hlen0 ⊢
                omega
              · intro hle
                exfalso
                simp only [List.length_cons] at hle
                omega
              · rw [← h5]
                cases ts with
                | nil =>
                  obtain ⟨hh, _, _⟩ := (ih (a2 :: rest2) env.poolAddress tr0 txs0 h20 hrec).2.1
                    (by simp)
                  exact hh
                | cons t3 ts2 =>
                  exact hpool0 (by simp only [List.length_cons]; omega)

theorem execSwapLoop_ok_spec (env : ExecEnv) (recipient : Address) :
    ∀ (path : List Token) (amounts : List Int) (holder : Address) (tr : List TxRequest)
      (txs : List TxId) (h2 : Address) (ft : Token) (fa : Int),
      path.length = amounts.length →
      execSwapLoop env holder path amounts = (tr, .ok (txs, h2)) →
      path.getLast? = some ft → amounts.getLast? = some fa →
      tr ++ [TxRequest.transferReq ft recipient fa h2] =
        expectedRequests env.poolAddress recipient holder path amounts ∧
      respondAll env tr = .ok txs := by
  intro path
  induction path with
  | nil =>
    intro amounts holder tr txs h2 ft fa hlen h hft hfa
    cases hft
  | cons t1 rest ih =>
    intro amounts holder tr txs h2 ft fa hlen h hft hfa
    cases rest with
    | nil =>
      cases amounts with
      | nil => cases hlen
      | cons a1 amounts2 =>
        cases amounts2 with
        | cons a2 rest2 => cases hlen
        | nil =>
          simp only [execSwapLoop, Prod.mk.injEq, Except.ok.injEq] at h
          obtain ⟨h3, h4, h5⟩ := h
          have hft2 : ft = t1 := by
            injection hft with h6
            exact h6.symm
          have hfa2 : fa = a1 := by
            injection hfa with h6
            exact h6.symm
          rw [← h3, ← h4, ← h5, hft2, hfa2]
          exact ⟨rfl, rfl⟩
    | cons t2 ts =>
      cases amounts with
      | nil => cases hlen
      | cons a1 amounts2 =>
        cases amounts2 with
        | nil => cases hlen
        | cons a2 rest2 =>
          have hlen2 : (t2 :: ts).length = (a2 :: rest2).length := by
            simp only [List.length_cons] at hlen ⊢
            omega
          have hft2 : (t2 :: ts).getLast? = some ft := by
            rw [List.getLast?_cons_cons] at hft
            exact hft
          have hfa2 : (a2 :: rest2).getLast? = some fa := by
            rw [List.getLast?_cons_cons] at hfa
            exact hfa
          simp only [execSwapLoop] at h
          split at h
          · simp at h
          · next tx hswap =>
            split at h
            · simp at h
            · next tr0 txs0 h20 hrec =>
              simp only [Prod.mk.injEq, Except.ok.injEq] at h
              obtain ⟨h3, h4, h5⟩ := h
              obtain ⟨htr0, hresp0⟩ :=
                ih (a2 :: rest2) env.poolAddress tr0 txs0 h20 ft fa hlen2 hrec hft2 hfa2
              rw [h5] at htr0
              constructor
              · rw [← h3, List.cons_append, htr0]
                rfl
              · rw [← h3, ← h4]
                simp only [respondAll]
                have hq : respond env
                    (TxRequest.swapReq t1 t2 a1 (Int.fdiv (a2 * 99) 100) holder) =
                    env.swap t1 t2 a1 (Int.fdiv (a2 * 99) 100) holder := rfl
                rw [hq, hswap, hresp0]

theorem execSwapLoop_err_spec (env : ExecEnv) :
    ∀ (path : List Token) (amounts : List Int) (holder : Address) (tr : List TxRequest)
      (e : Err),
      path.length = amounts.length →
      execSwapLoop env holder path amounts = (tr, .error e) →
      ∃ tr0 rq txs0, tr = tr0 ++ [rq] ∧ respondAll env tr0 = .ok txs0 ∧
        respond env rq = .error e := by
  intro path
  induction path with
  | nil =>
    intro amounts holder tr e hlen h
    simp only [execSwapLoop, Prod.mk.injEq] at h
    obtain ⟨_, h4⟩ := h
    cases h4
  | cons t1 rest ih =>
    intro amounts holder tr e hlen h
    cases rest with
    | nil =>
      simp only [execSwapLoop, Prod.mk.injEq] at h
      obtain ⟨_, h4⟩ := h
      cases h4
    | cons t2 ts =>
      cases amounts with
      | nil => cases hlen
      | cons a1 amounts2 =>
        cases amounts2 with
        | nil => cases hlen
        | cons a2 rest2 =>
          have hlen2 : (t2 :: ts).length = (a2 :: rest2).length := by
            simp only [List.length_cons] at hlen ⊢
            omega
          simp only [execSwapLoop] at h
          split at h
          · next e0 hswap =>
            simp only [Prod.mk.injEq, Except.error.injEq] at h
            obtain ⟨h3, h4⟩ := h
            refine ⟨[], TxRequest.swapReq t1 t2 a1 (Int.fdiv (a2 * 99) 100) holder, [],
              ?_, rfl, ?_⟩
            · rw [← h3]
              rfl
            · have hq : respond env
                  (TxRequest.swapReq t1 t2 a1 (Int.fdiv (a2 * 99) 100) holder) =
                  env.swap t1 t2 a1 (Int.fdiv (a2 * 99) 100) holder := rfl
              rw [hq, hswap, h4]
          · next tx hswap =>
            split at h
            · next tr1 e1 hrec =>
              simp only [Prod.mk.injEq, Except.error.injEq] at h
              obtain ⟨h3, h4⟩ := h
              obtain ⟨tr0, rq, txs0, htr1, hresp0, hrq⟩ :=
                ih (a2 :: rest2) env.poolAddress tr1 e1 hlen2 hrec
              refine ⟨TxRequest.swapReq t1 t2 a1 (Int.fdiv (a2 * 99) 100) holder :: tr0,
                rq, tx :: txs0, ?_, ?_, ?_⟩
              · rw [← h3, htr1]
                rfl
              · simp only [respondAll]
                have hq : respond env
                    (TxRequest.swapReq t1 t2 a1 (Int.fdiv (a2 * 99) 100) holder) =
                    env.swap t1 t2 a1 (Int.fdiv (a2 * 99) 100) holder := rfl
                rw [hq, hswap, hresp0]
              · rw [hrq, h4]
            · simp at h

/-- C4: a successful `execute_route` submits exactly the request sequence
the spec prescribes — hops strictly in path order starting from the
sender, each swap of `amounts[i]` with `minOut = (amounts[i+1] * 99) / 100`
rounded down, the pool address becoming the holder after each swap, and a
final transfer of the last amount to the recipient — and returns the
transaction identifiers of those requests in submission order. -/
theorem c4_execution_order (env : ExecEnv) (route : Route) (sender recipient : Address)
    (txs : List TxId) (hlen : route.path.length = route.amounts.length)
    (h : (execute_route env route sender recipient).2 = .ok txs) :
    (execute_route env route sender recipient).1 =
      expectedRequests env.poolAddress recipient sender route.path route.amounts ∧
    respondAll env ((execute_route env route sender recipient).1) = .ok txs := by
  rcases hloop : execSwapLoop env sender route.path route.amounts with ⟨tr, res⟩
  have hE : execute_route env route sender recipient =
      afterSwaps env recipient route.path route.amounts (tr, res) := by
    rw [execute_route, hloop]
  rw [hE] at h ⊢
  cases res with
  | error e => simp only [afterSwaps] at h; cases h
  | ok s =>
    obtain ⟨txs0, holder⟩ := s
    simp only [afterSwaps] at h ⊢
    cases hft : route.path.getLast? with
    | none =>
      cases hfa : route.amounts.getLast? with
      | none => simp only [finishTransfer, hft, hfa] at h; cases h
      | some fa => simp only [finishTransfer, hft, hfa] at h; cases h
    | some ft =>
      cases hfa : route.amounts.getLast? with
      | none => simp only [finishTransfer, hft, hfa] at h; cases h
      | some fa =>
        simp only [finishTransfer, hft, hfa] at h ⊢
        obtain ⟨htrace, hresp⟩ := execSwapLoop_ok_spec env recipient route.path
          route.amounts sender tr txs0 holder ft fa hlen hloop hft hfa
        cases htr : env.transfer ft recipient fa holder with
        | error e2 => rw [htr] at h; cases h
        | ok tx =>
          rw [htr] at h
          have h3 : (Except.ok (txs0 ++ [tx]) : Except Err (List TxId)) = .ok txs := h
          injection h3 with h2
          refine ⟨htrace, ?_⟩
          rw [← h2]
          refine respondAll_append_ok env tr txs0
            (TxRequest.transferReq ft recipient fa holder) tx hresp ?_
          have hq : respond env (TxRequest.transferReq ft recipient fa holder) =
              env.transfer ft recipient fa holder := rfl
          rw [hq, htr]

/-- C10: whenever `execute_route` succeeds it returns exactly one
transaction identifier per path entry — one per swap hop in execution
order followed by one for the final transfer — and for a single-node path
no swap is submitted and the single identifier is that of a transfer sent
directly from the sender to the recipient. -/
theorem c10_success_tx_count (env : ExecEnv) (route : Route) (sender recipient : Address)
    (txs : List TxId) (h : (execute_route env route sender recipient).2 = .ok txs) :
    txs.length = route.path.length ∧
    (∀ t a, route.path = [t] → route.amounts.getLast? = some a →
      (execute_route env route sender recipient).1 =
        [TxRequest.transferReq t recipient a sender] ∧
      ∃ tx, txs = [tx] ∧ env.transfer t recipient a sender = .ok tx) := by
  rcases hloop : execSwapLoop env sender route.path route.amounts with ⟨tr, res⟩
  have hE : execute_route env route sender recipient =
      afterSwaps env recipient route.path route.amounts (tr, res) := by
    rw [execute_route, hloop]
  rw [hE] at h ⊢
  cases res with
  | error e => simp only [afterSwaps] at h; cases h
  | ok s =>
    obtain ⟨txs0, holder⟩ := s
    simp only [afterSwaps] at h ⊢
    cases hft : route.path.getLast? with
    | none =>
      cases hfa : route.amounts.getLast? with
      | none => simp only [finishTransfer, hft, hfa] at h; cases h
      | some fa => simp only [finishTransfer, hft, hfa] at h; cases h
    | some ft =>
      cases hfa : route.amounts.getLast? with
      | none => simp only [finishTransfer, hft, hfa] at h; cases h
      | some fa =>
        simp only [finishTransfer, hft, hfa] at h ⊢
        cases htr : env.transfer ft recipient fa holder with
        | error e2 => rw [htr] at h; cases h
        | ok tx =>
          rw [htr] at h
          have h3 : (Except.ok (txs0 ++ [tx]) : Except Err (List TxId)) = .ok txs := h
          injection h3 with h2
          obtain ⟨hlen0, hsingle, _⟩ :=
            execSwapLoop_ok_len env route.path route.amounts sender tr txs0 holder hloop
          have hpne : route.path ≠ [] := by
            intro hnil
            rw [hnil] at hft
            cases hft
          have hppos : 1 ≤ route.path.length := by
            cases hp : route.path with
            | nil => exact absurd hp hpne
            | cons x xs => simp [hp]
          constructor
          · rw [← h2]
            simp only [List.length_append, List.length_cons, List.length_nil]
            omega
          · intro t a hpath hfa2
            obtain ⟨hh, htr0, htxs0⟩ := hsingle (by rw [hpath]; rfl)
            have hft2 : ft = t := by
              rw [hpath] at hft
              injection hft with h6
              exact h6.symm
            have hfa3 : fa = a := Option.some.inj hfa2
            constructor
            · rw [htr0, hh, hft2, hfa3]
              rfl
            · refine ⟨tx, ?_, ?_⟩
              · rw [← h2, htxs0]
                rfl
              · rw [← hft2, ← hfa3, ← hh]
                exact htr

/-- C3 amended: when `execute_route` fails on a well-formed route (as many
amounts as path entries, nonempty path), the failing request is the last
one submitted — every earlier submission succeeded, no later hop and no
compensating transaction is submitted — and the raised value is the bare
underlying cause, carrying neither the failing hop index nor the
committed transaction identifiers. -/
theorem c3_amended_failure_propagates (env : ExecEnv) (route : Route)
    (sender recipient : Address) (cause : Err)
    (hlen : route.path.length = route.amounts.length) (hpne : route.path ≠ [])
    (h : (execute_route env route sender recipient).2 = .error cause) :
    ∃ tr0 rq txs0,
      (execute_route env route sender recipient).1 = tr0 ++ [rq] ∧
      respondAll env tr0 = .ok txs0 ∧ respond env rq = .error cause := by
  rcases hloop : execSwapLoop env sender route.path route.amounts with ⟨tr, res⟩
  have hE : execute_route env route sender recipient =
      afterSwaps env recipient route.path route.amounts (tr, res) := by
    rw [execute_route, hloop]
  rw [hE] at h ⊢
  cases res with
  | error e =>
    simp only [afterSwaps] at h ⊢
    have h3 : (Except.error e : Except Err (List TxId)) = .error cause := h
    injection h3 with h4
    obtain ⟨tr0, rq, txs0, htr, hresp, hrq⟩ :=
      execSwapLoop_err_spec env route.path route.amounts sender tr e hlen hloop
    exact ⟨tr0, rq, txs0, htr, hresp, by rw [hrq, h4]⟩
  | ok s =>
    obtain ⟨txs0, holder⟩ := s
    simp only [afterSwaps] at h ⊢
    have hane : route.amounts ≠ [] := by
      intro h0
      rw [h0] at hlen
      simp only [List.length_nil] at hlen
      exact hpne (List.length_eq_zero.mp hlen)
    obtain ⟨ft, hft⟩ := getLast?_some_of_ne_nil route.path hpne
    obtain ⟨fa, hfa⟩ := getLast?_some_of_ne_nil route.amounts hane
    simp only [finishTransfer, hft, hfa] at h ⊢
    obtain ⟨_, hresp⟩ := execSwapLoop_ok_spec env recipient route.path
      route.amounts sender tr txs0 holder ft fa hlen hloop hft hfa
    cases htr : env.transfer ft recipient fa holder with
    | ok tx =>
      rw [htr] at h
      cases h
    | error e2 =>
      rw [htr] at h
      have h3 : (Except.error e2 : Except Err (List TxId)) = .error cause := h
      injection h3 with h4
      refine ⟨tr, TxRequest.transferReq ft recipient fa holder, txs0, rfl, hresp, ?_⟩
      have hq : respond env (TxRequest.transferReq ft recipient fa holder) =
          env.transfer ft recipient fa holder := rfl
      rw [hq, htr, h4]

/-- C3 counterexample: two environments that commit different hop-0
transaction identifiers before the same hop-1 failure yield identical
`execute_route` outcomes: the raised value is the bare underlying cause
77, so it cannot carry the committed transaction identifiers (11 versus
12) nor any failing-hop structure, contradicting the claimed
`RouteExecutionFailure` payload. -/
theorem c3_counterexample :
    execEnvFailA.swap 0 1 10000 9870 5 = .ok 11 ∧
    execEnvFailB.swap 0 1 10000 9870 5 = .ok 12 ∧
    (execute_route execEnvFailA route3 5 6).2 = .error 77 ∧
    (execute_route execEnvFailA route3 5 6).2 = (execute_route execEnvFailB route3 5 6).2 := by
  refine ⟨by decide, by decide, by decide, by decide⟩

/-- Witness for C1: over the concrete snapshot `env3` the query from
token 0 to token 2 returns `routeC1`, and the theorem's conclusions hold
for it. -/
theorem c1_witness :
    (0 : Token) ≠ 2 ∧ find_best_route env3 0 2 10000 3 = some routeC1 ∧
    ∃ paths routes,
      allSimplePaths (build_graph env3) 0 2 3 = .ok paths ∧
      evalAll (build_graph env3) 10000 paths = .ok routes ∧
      routeC1.path ∈ paths ∧
      simplePathWithin (build_graph env3) 0 2 3 routeC1.path ∧
      (∀ c ∈ routes, routeC1.total_fee ≤ c.total_fee) ∧
      ∃ pre post, routes = pre ++ routeC1 :: post ∧
        ∀ c ∈ pre, routeC1.total_fee < c.total_fee :=
  ⟨by decide, by decide,
    c1_best_route_minimal env3 0 2 10000 3 routeC1 (by decide) (by decide)⟩

/-- Witness for C2 at the same concrete query. -/
theorem c2_witness :
    find_best_route env3 0 2 10000 3 = some routeC1 ∧
    (routeC1.amounts.length = routeC1.path.length ∧
     routeC1.amounts.head? = some 10000 ∧
     amountsOk (build_graph env3) routeC1.path routeC1.amounts = true ∧
     ∃ fees, feesAlong (build_graph env3) routeC1.path routeC1.amounts = some fees ∧
       routeC1.total_fee = fees.sum) :=
  ⟨by decide, c2_route_amounts env3 0 2 10000 3 routeC1 (by decide)⟩

/-- Witness for the amended C3: executing the two-hop `route3` in an
environment whose second swap fails with cause 77 raises exactly that
cause, with one successfully committed earlier submission and nothing
submitted after the failing request. -/
theorem c3_witness :
    (execute_route execEnvFailA route3 5 6).2 = .error 77 ∧
    ∃ tr0 rq txs0,
      (execute_route execEnvFailA route3 5 6).1 = tr0 ++ [rq] ∧
      respondAll execEnvFailA tr0 = .ok txs0 ∧ respond execEnvFailA rq = .error 77 :=
  ⟨by decide,
    c3_amended_failure_propagates execEnvFailA route3 5 6 77 (by decide) (by decide)
      (by decide)⟩

/-- Witness for C4: a successful execution of `routeC1` submits exactly
the expected swap and transfer requests and returns their identifiers in
order. -/
theorem c4_witness :
    (execute_route execEnvOk routeC1 5 6).2 = .ok [11, 22] ∧
    ((execute_route execEnvOk routeC1 5 6).1 =
      expectedRequests execEnvOk.poolAddress 6 5 routeC1.path routeC1.amounts ∧
     respondAll execEnvOk ((execute_route execEnvOk routeC1 5 6).1) = .ok [11, 22]) :=
  ⟨by decide, c4_execution_order execEnvOk routeC1 5 6 [11, 22] (by decide) (by decide)⟩

/-- Witness for the amended C6: distinct endpoints and an empty registry
give `none`. -/
theorem c6_witness :
    (0 : Token) ≠ 1 ∧ envEmpty.stablecoins = [] ∧
    find_best_route envEmpty 0 1 5 3 = none :=
  ⟨by decide, rfl, c6_amended_no_route_none envEmpty 0 1 5 3 (by decide) (Or.inl rfl)⟩

/-- Witness for C7: in `env3` the liquidity condition holds for the pair
(0, 1), so the edge 0→1 is present in the rebuilt graph. -/
theorem c7_witness :
    ∃ e ∈ build_graph env3, e.src = 0 ∧ e.dst = 1 :=
  ((c7_edge_condition env3 0 1 1 1 30 (by decide) (by decide) (by decide) rfl rfl
      (by decide) rfl).1).mpr
    ⟨1000000, 1000, rfl, rfl, by decide⟩

/-- Witness for C8 at the concrete query returning `routeC1`. -/
theorem c8_witness :
    find_best_route env3 0 2 10000 3 = some routeC1 ∧
    routeC1.estimated_gas = 21000 + 100000 * ((routeC1.path.length - 1 : Nat) : Int) :=
  ⟨by decide, c8_estimated_gas env3 0 2 10000 3 routeC1 (by decide)⟩

/-- Witness for C9: with an empty registry the enumeration raises
(`NodeNotFound`, error 1) and `find_best_route` returns `none`. -/
theorem c9_witness :
    (0 : Token) ≠ 1 ∧
    find_best_route_body (build_graph envEmpty) 0 1 5 3 = .error 1 ∧
    find_best_route envEmpty 0 1 5 3 = none :=
  ⟨by decide, by decide,
    c9_search_errors_absorbed envEmpty 0 1 5 3 1 (by decide) (by decide)⟩

/-- Witness for C10: executing the single-node route `routeS` submits no
swap and returns exactly the identifier of a transfer from the sender to
the recipient. -/
theorem c10_witness :
    (execute_route execEnvOk routeS 5 6).2 = .ok [22] ∧
    ([22].length = routeS.path.length ∧
     (∀ t a, routeS.path = [t] → routeS.amounts.getLast? = some a →
       (execute_route execEnvOk routeS 5 6).1 = [TxRequest.transferReq t 6 a 5] ∧
       ∃ tx, ([22] : List TxId) = [tx] ∧ execEnvOk.transfer t 6 a 5 = .ok tx)) :=
  ⟨by decide, c10_success_tx_count execEnvOk routeS 5 6 [22] (by decide)⟩
